import Mathlib

/-!
Shallow embedding of the `ilo-nimi` name generator.

The repository has two generation paths:
* `src/lib.rs` — a string-based `NameGenerator` (`new`, `generate`, and the free
  functions `name`, `initial`, `syllable`, `nucleus` building a `String` directly);
* `src/syllable.rs` — the syllable-structured sampler (`Syllable::new` with the
  retroactive coda mutation, the weighted `Onset`/`Nucleus`/`Coda` draws, and the
  per-script rendering tables).

Randomness is modelled deterministically: `random_bool(p)` compares the next
uniform rational draw against `p`, and the uniform integer draw inside
`choose_weighted` comes from a second stream of naturals (taken modulo the total
weight).  The glyph tables of `syllable.rs` are stored in the repository file in a
Mac-Roman transcoding of their UTF-8 text; the definitions below restore the
original single-codepoint literals.
-/

namespace IloNimi

/-- Deterministic model of the `rand::Rng` source threaded through generation:
`unifs` backs `random_bool` draws (uniform rationals in `[0,1)`), `picks` backs
the uniform integer draws made by `choose_weighted` and by Poisson sampling. -/
structure Rng where
  unifs : Nat → ℚ
  picks : Nat → Nat

/-- `rng.random_bool(p)`: draw `true` with probability `p`, modelled as comparing
the next uniform draw against the threshold `p`. -/
def Rng.nextBool (r : Rng) (p : ℚ) : Bool × Rng :=
  (decide (r.unifs 0 < p), ⟨fun n => r.unifs (n + 1), r.picks⟩)

/-- Consume one uniform integer draw. -/
def Rng.nextPick (r : Rng) : Nat × Rng :=
  (r.picks 0, ⟨r.unifs, fun n => r.picks (n + 1)⟩)

/-- The selection walk of `rand`'s `choose_weighted`: given a uniform `x` below the
total weight, pick the first item whose running weight sum exceeds `x`. -/
def selectWeighted {α : Type} (w : α → Nat) : List α → Nat → Option α
  | [], _ => none
  | a :: rest, x => if x < w a then some a else selectWeighted w rest (x - w a)

/-- `items.choose_weighted(rng, w)`: errors (`none`, the `unwrap` panic path) iff
the total weight is zero; otherwise draws a uniform integer below the total and
walks the cumulative weights. -/
def chooseWeighted {α : Type} (items : List α) (w : α → Nat) (r : Rng) :
    Option (α × Rng) :=
  let total := (items.map w).sum
  if total = 0 then none
  else
    let (x, r') := r.nextPick
    (selectWeighted w items (x % total)).map fun a => (a, r')

/-! ### The phoneme model of `src/syllable.rs` -/

inductive Onset where
  | Null | P | T | K | S | M | N | L | J | W
  deriving DecidableEq, Fintype

inductive Nucleus where
  | A | E | I | O | U
  deriving DecidableEq, Fintype

inductive Coda where
  | Null | N
  deriving DecidableEq, Fintype

structure Syllable where
  onset : Onset
  nucleus : Nucleus
  coda : Coda
  deriving DecidableEq

/-- The weight closure of `Onset::random` (`Onset::Null => 0` is the fall-through
arm of the source `match`). -/
def Onset.weight : Onset → Nat
  | .P => 61
  | .T => 45
  | .K => 91
  | .S => 64
  | .M => 50
  | .N => 32
  | .L => 83
  | .J => 35
  | .W => 34
  | .Null => 0

/-- `Onset::random`: weighted draw over the nine non-null onsets. -/
def Onset.random (r : Rng) : Option (Onset × Rng) :=
  chooseWeighted [.P, .T, .K, .S, .M, .N, .L, .J, .W] Onset.weight r

/-- The weight closure of `Nucleus::random`: `I` is weighted 0 after onset `T`/`J`,
`O` and `U` are weighted 0 after onset `W`. -/
def Nucleus.weight (onset : Onset) : Nucleus → Nat
  | .A => 146
  | .E => 94
  | .I => if onset ≠ Onset.T ∧ onset ≠ Onset.J then 140 else 0
  | .O => if onset ≠ Onset.W then 88 else 0
  | .U => if onset ≠ Onset.W then 64 else 0

/-- `Nucleus::random(rng, onset)`. -/
def Nucleus.random (r : Rng) (onset : Onset) : Option (Nucleus × Rng) :=
  chooseWeighted [.A, .E, .I, .O, .U] (Nucleus.weight onset) r

/-- `Coda::random`: `N` with probability 0.1, else no coda. -/
def Coda.random (r : Rng) : Coda × Rng :=
  let (b, r') := r.nextBool (Rat.divInt 1 10)
  (if b then Coda.N else Coda.Null, r')

/-- The onset branch of `Syllable::new`: with a previous syllable, always a
weighted draw, and a drawn `M`/`N` retroactively clears the previous syllable's
coda; with no previous syllable, a null onset with probability 0.25, else a
weighted draw.  Returns the onset together with the (possibly mutated) previous
syllable. -/
def Syllable.onsetStep (r : Rng) (prev : Option Syllable) :
    Option ((Onset × Option Syllable) × Rng) :=
  match prev with
  | some p =>
    match Onset.random r with
    | none => none
    | some (onset, r₁) =>
      if onset = Onset.M ∨ onset = Onset.N then
        some ((onset, some { p with coda := Coda.Null }), r₁)
      else
        some ((onset, some p), r₁)
  | none =>
    let (b, r₁) := r.nextBool (Rat.divInt 1 4)
    if b then some ((Onset.Null, none), r₁)
    else
      match Onset.random r₁ with
      | none => none
      | some (onset, r₂) => some ((onset, none), r₂)

/-- `Syllable::new(rng, prev)`: onset draw (with the retroactive coda mutation),
then nucleus draw constrained by the onset, then coda draw.  The second component
of the result is the previous syllable after any mutation (`none` iff no previous
syllable was supplied). -/
def Syllable.new (r : Rng) (prev : Option Syllable) :
    Option ((Syllable × Option Syllable) × Rng) :=
  match Syllable.onsetStep r prev with
  | none => none
  | some ((onset, prev₂), r₁) =>
    match Nucleus.random r₁ onset with
    | none => none
    | some (nucleus, r₂) =>
      let (coda, r₃) := Coda.random r₂
      some ((⟨onset, nucleus, coda⟩, prev₂), r₃)

/-! ### Rendering tables of `src/syllable.rs` needed by the claims.
`unreachable!()` arms are embedded as `none`. -/

/-- `Syllable::hangul_char`: the Hangul syllable-block table over the full
(onset, nucleus, coda) triple. -/
def Syllable.hangulChar : Syllable → Option Char
  | ⟨.Null, .A, .Null⟩ => some '아'
  | ⟨.Null, .E, .Null⟩ => some '어'
  | ⟨.Null, .O, .Null⟩ => some '오'
  | ⟨.Null, .U, .Null⟩ => some '우'
  | ⟨.Null, .I, .Null⟩ => some '이'
  | ⟨.Null, .A, .N⟩ => some '안'
  | ⟨.Null, .E, .N⟩ => some '언'
  | ⟨.Null, .O, .N⟩ => some '온'
  | ⟨.Null, .U, .N⟩ => some '운'
  | ⟨.Null, .I, .N⟩ => some '인'
  | ⟨.J, .A, .Null⟩ => some '야'
  | ⟨.J, .E, .Null⟩ => some '여'
  | ⟨.J, .O, .Null⟩ => some '요'
  | ⟨.J, .U, .Null⟩ => some '유'
  | ⟨.J, .I, .Null⟩ => none
  | ⟨.J, .A, .N⟩ => some '얀'
  | ⟨.J, .E, .N⟩ => some '연'
  | ⟨.J, .O, .N⟩ => some '욘'
  | ⟨.J, .U, .N⟩ => some '윤'
  | ⟨.J, .I, .N⟩ => none
  | ⟨.W, .A, .Null⟩ => some '와'
  | ⟨.W, .E, .Null⟩ => some '워'
  | ⟨.W, .O, .Null⟩ => none
  | ⟨.W, .U, .Null⟩ => none
  | ⟨.W, .I, .Null⟩ => some '위'
  | ⟨.W, .A, .N⟩ => some '완'
  | ⟨.W, .E, .N⟩ => some '원'
  | ⟨.W, .O, .N⟩ => none
  | ⟨.W, .U, .N⟩ => none
  | ⟨.W, .I, .N⟩ => some '윈'
  | ⟨.K, .A, .Null⟩ => some '가'
  | ⟨.K, .E, .Null⟩ => some '거'
  | ⟨.K, .O, .Null⟩ => some '고'
  | ⟨.K, .U, .Null⟩ => some '구'
  | ⟨.K, .I, .Null⟩ => some '기'
  | ⟨.K, .A, .N⟩ => some '간'
  | ⟨.K, .E, .N⟩ => some '건'
  | ⟨.K, .O, .N⟩ => some '곤'
  | ⟨.K, .U, .N⟩ => some '군'
  | ⟨.K, .I, .N⟩ => some '긴'
  | ⟨.N, .A, .Null⟩ => some '나'
  | ⟨.N, .E, .Null⟩ => some '너'
  | ⟨.N, .O, .Null⟩ => some '노'
  | ⟨.N, .U, .Null⟩ => some '누'
  | ⟨.N, .I, .Null⟩ => some '니'
  | ⟨.N, .A, .N⟩ => some '난'
  | ⟨.N, .E, .N⟩ => some '넌'
  | ⟨.N, .O, .N⟩ => some '논'
  | ⟨.N, .U, .N⟩ => some '눈'
  | ⟨.N, .I, .N⟩ => some '닌'
  | ⟨.T, .A, .Null⟩ => some '다'
  | ⟨.T, .E, .Null⟩ => some '더'
  | ⟨.T, .O, .Null⟩ => some '도'
  | ⟨.T, .U, .Null⟩ => some '두'
  | ⟨.T, .I, .Null⟩ => none
  | ⟨.T, .A, .N⟩ => some '단'
  | ⟨.T, .E, .N⟩ => some '던'
  | ⟨.T, .O, .N⟩ => some '돈'
  | ⟨.T, .U, .N⟩ => some '둔'
  | ⟨.T, .I, .N⟩ => none
  | ⟨.L, .A, .Null⟩ => some '라'
  | ⟨.L, .E, .Null⟩ => some '러'
  | ⟨.L, .O, .Null⟩ => some '로'
  | ⟨.L, .U, .Null⟩ => some '루'
  | ⟨.L, .I, .Null⟩ => some '리'
  | ⟨.L, .A, .N⟩ => some '란'
  | ⟨.L, .E, .N⟩ => some '런'
  | ⟨.L, .O, .N⟩ => some '론'
  | ⟨.L, .U, .N⟩ => some '룬'
  | ⟨.L, .I, .N⟩ => some '린'
  | ⟨.M, .A, .Null⟩ => some '마'
  | ⟨.M, .E, .Null⟩ => some '머'
  | ⟨.M, .O, .Null⟩ => some '모'
  | ⟨.M, .U, .Null⟩ => some '무'
  | ⟨.M, .I, .Null⟩ => some '미'
  | ⟨.M, .A, .N⟩ => some '만'
  | ⟨.M, .E, .N⟩ => some '먼'
  | ⟨.M, .O, .N⟩ => some '몬'
  | ⟨.M, .U, .N⟩ => some '문'
  | ⟨.M, .I, .N⟩ => some '민'
  | ⟨.P, .A, .Null⟩ => some '바'
  | ⟨.P, .E, .Null⟩ => some '버'
  | ⟨.P, .O, .Null⟩ => some '보'
  | ⟨.P, .U, .Null⟩ => some '부'
  | ⟨.P, .I, .Null⟩ => some '비'
  | ⟨.P, .A, .N⟩ => some '반'
  | ⟨.P, .E, .N⟩ => some '번'
  | ⟨.P, .O, .N⟩ => some '본'
  | ⟨.P, .U, .N⟩ => some '분'
  | ⟨.P, .I, .N⟩ => some '빈'
  | ⟨.S, .A, .Null⟩ => some '사'
  | ⟨.S, .E, .Null⟩ => some '서'
  | ⟨.S, .O, .Null⟩ => some '소'
  | ⟨.S, .U, .Null⟩ => some '수'
  | ⟨.S, .I, .Null⟩ => some '시'
  | ⟨.S, .A, .N⟩ => some '산'
  | ⟨.S, .E, .N⟩ => some '선'
  | ⟨.S, .O, .N⟩ => some '손'
  | ⟨.S, .U, .N⟩ => some '순'
  | ⟨.S, .I, .N⟩ => some '신'

/-- `Onset::syllabics_char(nucleus)`: the Canadian-syllabics block table. -/
def Onset.syllabicsChar : Onset → Nucleus → Option Char
  | .Null, .A => some 'ᐊ'
  | .Null, .E => some 'ᐁ'
  | .Null, .I => some 'ᐃ'
  | .Null, .O => some 'ᐅ'
  | .Null, .U => some 'ᐆ'
  | .P, .A => some 'ᐸ'
  | .P, .E => some 'ᐯ'
  | .P, .I => some 'ᐱ'
  | .P, .O => some 'ᐳ'
  | .P, .U => some 'ᐴ'
  | .T, .A => some 'ᑕ'
  | .T, .E => some 'ᑌ'
  | .T, .I => none
  | .T, .O => some 'ᑐ'
  | .T, .U => some 'ᑑ'
  | .K, .A => some 'ᑲ'
  | .K, .E => some 'ᑫ'
  | .K, .I => some 'ᑭ'
  | .K, .O => some 'ᑯ'
  | .K, .U => some 'ᑰ'
  | .S, .A => some 'ᓴ'
  | .S, .E => some 'ᓭ'
  | .S, .I => some 'ᓯ'
  | .S, .O => some 'ᓱ'
  | .S, .U => some 'ᓲ'
  | .M, .A => some 'ᒪ'
  | .M, .E => some 'ᒣ'
  | .M, .I => some 'ᒥ'
  | .M, .O => some 'ᒧ'
  | .M, .U => some 'ᒨ'
  | .N, .A => some 'ᓇ'
  | .N, .E => some 'ᓀ'
  | .N, .I => some 'ᓂ'
  | .N, .O => some 'ᓄ'
  | .N, .U => some 'ᓅ'
  | .L, .A => some 'ᓚ'
  | .L, .E => some 'ᓓ'
  | .L, .I => some 'ᓕ'
  | .L, .O => some 'ᓗ'
  | .L, .U => some 'ᓘ'
  | .J, .A => some 'ᔭ'
  | .J, .E => some 'ᔦ'
  | .J, .I => none
  | .J, .O => some 'ᔪ'
  | .J, .U => some 'ᔫ'
  | .W, .A => some 'ᕙ'
  | .W, .E => some 'ᕓ'
  | .W, .I => some 'ᕕ'
  | .W, .O => none
  | .W, .U => none

/-- `Onset::hebrew_char`. -/
def Onset.hebrewChar : Onset → Char
  | .Null => 'א'
  | .P => 'פ'
  | .T => 'ט'
  | .K => 'ק'
  | .S => 'ס'
  | .M => 'מ'
  | .N => 'נ'
  | .L => 'ל'
  | .J => 'י'
  | .W => 'ו'

/-- `Nucleus::hebrew_char` (vowel points). -/
def Nucleus.hebrewChar : Nucleus → Char
  | .A => 'ָ' -- U+05B8
  | .E => 'ֶ' -- U+05B6
  | .I => 'ִ' -- U+05B4
  | .O => 'ֹ' -- U+05B9
  | .U => 'ֻ' -- U+05BB
/-- `Coda::hebrew_char(last)`: a nasal coda renders as the final letterform `ן`
(U+05DF) when the syllable is word-final, else as the medial letterform `נ`
(U+05E0). -/
def Coda.hebrewChar (c : Coda) (last : Bool) : Option Char :=
  match c with
  | .Null => none
  | .N => if last then some 'ן' else some 'נ'

/-- The `Script::Hebrew` arm of `Syllable::write`: onset glyph, nucleus glyph,
then the coda glyph chosen by whether `next` is absent. -/
def Syllable.writeHebrew (s : Syllable) (next : Option Syllable) : List Char :=
  [s.onset.hebrewChar, s.nucleus.hebrewChar] ++ (s.coda.hebrewChar next.isNone).toList

/-- Guard `matches!(prev, Some(Syllable { coda: Coda::N, .. }))` of
`Onset::orkhon_char`. -/
def prevCodaIsN : Option Syllable → Bool
  | some s => decide (s.coda = Coda.N)
  | none => false

/-- Guard `matches!(prev, Some(Syllable { nucleus: Nucleus::O | Nucleus::U,
coda: Coda::Null, .. }))` of `Onset::orkhon_char`. -/
def prevIsRoundedOpen : Option Syllable → Bool
  | some s => decide (s.nucleus = Nucleus.O ∨ s.nucleus = Nucleus.U)
      && decide (s.coda = Coda.Null)
  | none => false

/-- `Onset::orkhon_char(prev, is_back)`: returns the onset glyph (if any) and a
flag telling whether vowel backness is already encoded in it.  Onsets `T` and `J`
have a distinct allomorphic (ligature) glyph when the previous syllable's coda is
`N`; onset `W` is elided entirely after an open back-rounded syllable. -/
def Onset.orkhonChar (o : Onset) (prev : Option Syllable) (isBack : Bool) :
    Option Char × Bool :=
  match o with
  | .Null => (none, false)
  | .P => if isBack then (some '𐰉', true) else (some '𐰋', true)
  | .T =>
    if prevCodaIsN prev then (some '𐰦', false)
    else if isBack then (some '𐱃', true) else (some '𐱅', true)
  | .K => if isBack then (some '𐰴', true) else (some '𐰚', true)
  | .S => if isBack then (some '𐰽', true) else (some '𐰾', true)
  | .M => (some '𐰢', false)
  | .N => if isBack then (some '𐰣', true) else (some '𐰤', true)
  | .L => if isBack then (some '𐰞', true) else (some '𐰠', true)
  | .J =>
    if prevCodaIsN prev then (some '𐰪', false)
    else if isBack then (some '𐰖', true) else (some '𐰘', true)
  | .W => if prevIsRoundedOpen prev then (none, false) else (some '𐰆', false)

/-- `Nucleus::is_back`: `A`, `O`, `U` are back vowels. -/
def Nucleus.isBack : Nucleus → Bool
  | .A | .O | .U => true
  | .E | .I => false

/-! ### The Name assembler.

The `Name` type (its `random` constructor and neighbor-supplying `write` loop)
is declared in the repository's script-aware `lib.rs`, which is not included
under `src/`; only the spec describes it.  The two definitions below are
therefore modelled from the spec rather than translated from source. -/

/-- Modelled from the spec: the tail of `Name::random` (spec 4.3) — build the
remaining `k` syllables in order, each constructed by `Syllable::new` with a
mutable reference to the immediately preceding syllable, whose coda the
construction may retroactively clear before it is finalized. -/
def Name.randomAux : Nat → Syllable → Rng → Option (List Syllable × Rng)
  | 0, last, r => some ([last], r)
  | k + 1, last, r =>
    match Syllable.new r (some last) with
    | none => none
    | some ((s, prevOut), r₁) =>
      match prevOut with
      | none => none
      | some p =>
        match Name.randomAux k s r₁ with
        | none => none
        | some (rest, r₂) => some (p :: rest, r₂)

/-- Modelled from the spec: `Name::random` for a resolved syllable count (spec
4.3) — build `count` syllables in order, the first with no previous syllable,
each subsequent one with a mutable reference to its predecessor. -/
def Name.random (r : Rng) (count : Nat) : Option (List Syllable × Rng) :=
  match count with
  | 0 => some ([], r)
  | k + 1 =>
    match Syllable.new r none with
    | none => none
    | some ((s, _), r₁) => Name.randomAux k s r₁

/-- Modelled from the spec: the Hebrew specialization of `Name::write` (spec
4.3) — iterate the (final, post-mutation) syllables in order, supplying each its
next neighbor (absent only for the last syllable). -/
def Name.writeHebrew : List Syllable → List Char
  | [] => []
  | s :: rest => s.writeHebrew rest.head? ++ Name.writeHebrew rest

/-- Decidable check of the coda-suppression invariant: no syllable carries a
nasal coda `N` immediately followed by a syllable whose onset is `M` or `N`. -/
def noNasalClashB : List Syllable → Bool
  | s₁ :: s₂ :: rest =>
    !(decide (s₁.coda = Coda.N)
        && (decide (s₂.onset = Onset.M) || decide (s₂.onset = Onset.N)))
      && noNasalClashB (s₂ :: rest)
  | _ => true

/-! ### The string-based generator of `src/lib.rs`.

Names are `List Char`; every character pushed is ASCII, so the Rust byte length
`String::len` coincides with the character count (`List.length`). -/

/-- The nucleus weight closure of `lib.rs`: keyed on the last character already
in the buffer (`i` excluded after `t`/`j`, `o`/`u` excluded after `w`). -/
def nucleusWeightStr (last : Option Char) : Char → Nat
  | 'a' => 146
  | 'e' => 94
  | 'i' => if last ≠ some 't' ∧ last ≠ some 'j' then 140 else 0
  | 'o' => if last ≠ some 'w' then 88 else 0
  | 'u' => if last ≠ some 'w' then 64 else 0
  | _ => 0

/-- The onset weight closure of `lib.rs`: `m` and `n` are weighted 0 when the
buffer already ends in `n`. -/
def onsetWeightStr (last : Option Char) : Char → Nat
  | 'p' => 61
  | 't' => 45
  | 'k' => 91
  | 's' => 64
  | 'm' => if last ≠ some 'n' then 50 else 0
  | 'n' => if last ≠ some 'n' then 32 else 0
  | 'l' => 83
  | 'j' => 35
  | 'w' => 34
  | _ => 0

/-- `lib.rs::nucleus`: weighted vowel draw over `['a','i','e','o','u']` keyed on
the buffer's last character, push it (upper-cased when `title_case`), then append
the coda `'n'` with probability 0.06. -/
def nucleus (buf : List Char) (r : Rng) (titleCase : Bool) :
    Option (List Char × Rng) :=
  let last := buf.getLast?
  match chooseWeighted ['a', 'i', 'e', 'o', 'u'] (nucleusWeightStr last) r with
  | none => none
  | some (v, r₁) =>
    let buf₁ := buf ++ [if titleCase then v.toUpper else v]
    let (b, r₂) := r₁.nextBool (Rat.divInt 6 100)
    some ((if b then buf₁ ++ ['n'] else buf₁), r₂)

/-- `lib.rs::syllable`: weighted onset draw keyed on the buffer's last character,
push it (upper-cased when `title_case`), then a nucleus (never title-cased). -/
def syllable (buf : List Char) (r : Rng) (titleCase : Bool) :
    Option (List Char × Rng) :=
  let last := buf.getLast?
  match chooseWeighted ['p', 't', 'k', 's', 'm', 'n', 'l', 'j', 'w']
      (onsetWeightStr last) r with
  | none => none
  | some (o, r₁) =>
    nucleus (buf ++ [if titleCase then o.toUpper else o]) r₁ false

/-- `lib.rs::initial`: with probability 0.25 a bare nucleus (null onset),
otherwise a full syllable. -/
def initial (buf : List Char) (r : Rng) (titleCase : Bool) :
    Option (List Char × Rng) :=
  let (b, r₁) := r.nextBool (Rat.divInt 1 4)
  if b then nucleus buf r₁ titleCase else syllable buf r₁ titleCase

/-- The `for _ in 0..n` loop of `lib.rs::name`: append `n` further syllables. -/
def syllablesLoop : List Char → Rng → Nat → Option (List Char × Rng)
  | buf, r, 0 => some (buf, r)
  | buf, r, k + 1 =>
    match syllable buf r false with
    | none => none
    | some (buf₁, r₁) => syllablesLoop buf₁ r₁ k

/-- The syllable-count distribution of `lib.rs` (`Fixed`, or `Poisson` holding
the minimum count and the rate of the `rand_distr::Poisson` object). -/
inductive SyllableCountDistribution where
  | Fixed (count : Nat)
  | Poisson (minSyllables : Nat) (rate : Nat)
  deriving DecidableEq

/-- `rand_distr::Poisson::<f64>::MAX_LAMBDA` (1.844e19).  The syllable counts are
`u32` values, far below it, so the exact floating-point value never matters:
any constant above `2^32` gives the same clamped rates. -/
def poissonMaxLambda : Nat := 18440000000000000000

/-- Sampling the `Poisson` distribution object: the draw itself is treated as an
oracle (one integer from the pick stream); the `as u32` cast of the sampled `f64`
saturates at `u32::MAX`. -/
def poissonSample (r : Rng) : Nat × Rng :=
  let (x, r₁) := r.nextPick
  (min x 4294967295, r₁)

/-- The `NameGenerator` struct of `lib.rs`. -/
structure NameGenerator where
  min_length : Nat
  max_length : Option Nat
  syllable_count : SyllableCountDistribution

/-- `NameGenerator::new(min_length, max_length)`.  `min_syllables` is
`min_length.div_ceil(3)`; `max_syllables` is `(max + 1) / 2` when a maximum is
given, else `(min_length + 7) / 2`; the distribution is `Fixed` when the two
agree and otherwise `Poisson` with rate `max_syllables - min_syllables` clamped
to `MAX_LAMBDA`.  (The subtraction is `u32` subtraction; the callers validate
`max_length ≥ min_length`, under which it cannot underflow.) -/
def NameGenerator.new (min_length : Nat) (max_length : Option Nat) :
    NameGenerator :=
  let min_syllables := (min_length + 2) / 3
  let max_syllables :=
    match max_length with
    | some maxL => (maxL + 1) / 2
    | none => (min_length + 7) / 2
  let syllable_count :=
    if min_syllables = max_syllables then
      SyllableCountDistribution.Fixed min_syllables
    else
      SyllableCountDistribution.Poisson min_syllables
        (min (max_syllables - min_syllables) poissonMaxLambda)
  ⟨min_length, max_length, syllable_count⟩

/-- `lib.rs::name(rng, syllable_distribution, title_case)`: resolve the syllable
count, then build `initial` plus `count - 1` further syllables.  (For a count of
0 the Rust `0..(syllables - 1)` range would underflow `u32`; truncated `Nat`
subtraction stands in, and all claims keep `min_length` non-zero, which forces a
positive count.) -/
def name (r : Rng) (dist : SyllableCountDistribution) (titleCase : Bool) :
    Option (List Char × Rng) :=
  let (count, r₁) :=
    match dist with
    | .Fixed s => (s, r)
    | .Poisson minS _ =>
      let (x, r') := poissonSample r
      (minS + x, r')
  match initial [] r₁ titleCase with
  | none => none
  | some (buf, r₂) => syllablesLoop buf r₂ (count - 1)

/-- `NameGenerator::generate(rng, title_case)`: rejection-sampling loop — build a
candidate with `name`, return it iff its length is at least `min_length` and at
most `max_length` (when set), else retry with the advanced rng.  The unbounded
Rust `loop` is given explicit fuel; `none` means the fuel ran out (or a weighted
draw failed). -/
def NameGenerator.generate (g : NameGenerator) (r : Rng) (titleCase : Bool) :
    Nat → Option (List Char)
  | 0 => none
  | fuel + 1 =>
    match name r g.syllable_count titleCase with
    | none => none
    | some (nm, r₁) =>
      if decide (g.min_length ≤ nm.length)
          && Option.all (fun maxL => decide (nm.length ≤ maxL)) g.max_length then
        some nm
      else
        g.generate r₁ titleCase fuel

/-! ### Concrete randomness streams used by the witnesses. -/

/-- All boolean draws fail their threshold, all integer draws are 0 (so every
weighted choice takes the first positively-weighted item). -/
def rngZero : Rng := ⟨fun _ => 1, fun _ => 0⟩

/-- As `rngZero`, but the first integer draw (a Poisson sample) is 1. -/
def rngPoisson1 : Rng := ⟨fun _ => 1, fun n => if n = 0 then 1 else 0⟩

/-- All uniform draws are 0.08 — between the 0.06 coda probability of `lib.rs`
and the 0.1 of `Coda::random`. -/
def rngMid : Rng := ⟨fun _ => Rat.divInt 2 25, fun _ => 0⟩

/-- First integer draw 61 (cumulative walk lands on onset `t`), then 146
(landing on nucleus `i` when `i` is available, on `e` when `i` is excluded);
all boolean draws fail their thresholds. -/
def rngTitle : Rng := ⟨fun _ => 1, fun n => if n = 0 then 61 else 146⟩

/-! ### Properties of the weighted draws -/

/-- The cumulative-weight walk only ever selects a listed item of positive
weight. -/
theorem selectWeighted_mem {α : Type} (w : α → Nat) :
    ∀ (items : List α) (x : Nat) (a : α),
      selectWeighted w items x = some a → a ∈ items ∧ 0 < w a := by
  intro items
  induction items with
  | nil => intro x a h; simp [selectWeighted] at h
  | cons b rest ih =>
    intro x a h
    by_cases hb : x < w b
    · simp only [selectWeighted, if_pos hb, Option.some.injEq] at h
      subst h
      exact ⟨List.mem_cons_self _ _, Nat.lt_of_le_of_lt (Nat.zero_le x) hb⟩
    · simp only [selectWeighted, if_neg hb] at h
      obtain ⟨hm, hw⟩ := ih _ _ h
      exact ⟨List.mem_cons_of_mem _ hm, hw⟩

/-- `choose_weighted` only ever returns a listed item of positive weight:
weight-0 options are never selected. -/
theorem chooseWeighted_mem {α : Type} {items : List α} {w : α → Nat} {r : Rng}
    {a : α} {r' : Rng} (h : chooseWeighted items w r = some (a, r')) :
    a ∈ items ∧ 0 < w a := by
  simp only [chooseWeighted] at h
  split at h
  · exact Option.noConfusion h
  · rw [Option.map_eq_some'] at h
    obtain ⟨b, hb, hba⟩ := h
    injection hba with h₁ h₂
    subst h₁
    exact selectWeighted_mem w _ _ _ hb

/-- Any syllable produced by `Syllable::new` carries a nucleus that was drawn
with positive weight for its onset. -/
theorem Syllable.new_nucleus_pos {r : Rng} {prev : Option Syllable}
    {s : Syllable} {q : Option Syllable} {r' : Rng}
    (h : Syllable.new r prev = some ((s, q), r')) :
    0 < Nucleus.weight s.onset s.nucleus := by
  unfold Syllable.new at h
  split at h
  · exact Option.noConfusion h
  · rename_i onset prev₂ r₁ heq₁
    split at h
    · exact Option.noConfusion h
    · rename_i nucleus r₂ heq₂
      rcases hc : Coda.random r₂ with ⟨cd, r₃⟩
      rw [hc] at h
      simp only [Option.some.injEq, Prod.mk.injEq] at h
      obtain ⟨⟨hs, hq⟩, hr⟩ := h
      subst hs
      exact (chooseWeighted_mem heq₂).2

/-! ### C3 and C5 -/

/-- Any vowel appended by the `lib.rs` `nucleus` function was drawn with
positive weight for the buffer's last character; the output extends the buffer
by that vowel (upper-cased when `title_case`) and possibly a coda `'n'`. -/
theorem nucleus_vowel {buf : List Char} {r : Rng} {tc : Bool} {out : List Char}
    {r' : Rng} (h : nucleus buf r tc = some (out, r')) :
    ∃ v rest, 0 < nucleusWeightStr buf.getLast? v ∧
      out = buf ++ [if tc then v.toUpper else v] ++ rest := by
  simp only [nucleus] at h
  cases hv : chooseWeighted ['a', 'i', 'e', 'o', 'u']
      (nucleusWeightStr buf.getLast?) r with
  | none => rw [hv] at h; exact Option.noConfusion h
  | some v =>
    obtain ⟨c₀, r₁⟩ := v
    rw [hv] at h
    dsimp only at h
    simp only [Rng.nextBool] at h
    simp only [Option.some.injEq, Prod.mk.injEq] at h
    obtain ⟨hout, -⟩ := h
    refine ⟨c₀, if decide (r₁.unifs 0 < Rat.divInt 6 100) = true then ['n'] else [],
      (chooseWeighted_mem hv).2, ?_⟩
    rw [← hout]
    by_cases hb : decide (r₁.unifs 0 < Rat.divInt 6 100) = true
    · rw [if_pos hb, if_pos hb]
    · rw [if_neg hb, if_neg hb]
      simp

/-- **C3, counterexample.** The nucleus exclusion does not hold for every
syllable the repository's samplers produce: in `lib.rs`, title case pushes the
onset upper-cased before the nucleus draw compares the buffer's last character
against lowercase `'t'`/`'j'`/`'w'`, so the guard is bypassed and the same draws
that produce `"te"` in lower case produce the excluded pair `"Ti"` with
`title_case` set. -/
theorem c3_counterexample :
    (syllable [] rngTitle true).map (fun p => p.1) = some ['T', 'i'] ∧
    (syllable [] rngTitle false).map (fun p => p.1) = some ['t', 'e'] :=
  ⟨rfl, rfl⟩

/-- **C3, amended.** Every syllable produced by the struct sampler
(`Syllable::new`) satisfies the nucleus exclusion rules — never onset `T`/`J`
with nucleus `I`, never onset `W` with nucleus `O`/`U` — because those options
are given weight 0 and weight-0 options are never selected; the `lib.rs` string
sampler guarantees the same only in lower-case mode, where the pushed onset is
the lowercase character its guards compare against. -/
theorem c3_nucleus_exclusion_per_sampler :
    (∀ (r : Rng) (prev : Option Syllable) (s : Syllable) (q : Option Syllable)
        (r' : Rng), Syllable.new r prev = some ((s, q), r') →
        ((s.onset = Onset.T ∨ s.onset = Onset.J) → s.nucleus ≠ Nucleus.I) ∧
        (s.onset = Onset.W → s.nucleus ≠ Nucleus.O ∧ s.nucleus ≠ Nucleus.U)) ∧
    (∀ (buf : List Char) (r : Rng) (out : List Char) (r' : Rng),
        syllable buf r false = some (out, r') →
        ∃ o v rest, out = buf ++ [o] ++ [v] ++ rest ∧
          ((o = 't' ∨ o = 'j') → v ≠ 'i') ∧
          (o = 'w' → v ≠ 'o' ∧ v ≠ 'u')) := by
  constructor
  · intro r prev s q r' h
    have hpos := Syllable.new_nucleus_pos h
    rcases s with ⟨o, nu, cd⟩
    revert hpos
    cases o <;> cases nu <;> cases cd <;> decide
  · intro buf r out r' h
    simp only [syllable] at h
    cases ho : chooseWeighted ['p', 't', 'k', 's', 'm', 'n', 'l', 'j', 'w']
        (onsetWeightStr buf.getLast?) r with
    | none => rw [ho] at h; exact Option.noConfusion h
    | some v =>
      obtain ⟨o, r₁⟩ := v
      rw [ho] at h
      dsimp only at h
      have h₁ : nucleus (buf ++ [o]) r₁ false = some (out, r') := h
      obtain ⟨v, rest, hw, hout⟩ := nucleus_vowel h₁
      have hout₁ : out = buf ++ [o] ++ [v] ++ rest := hout
      have hlast : (buf ++ [o]).getLast? = some o := by simp
      rw [hlast] at hw
      refine ⟨o, v, rest, hout₁, ?_, ?_⟩
      · rintro (rfl | rfl) rfl <;> exact absurd hw (by decide)
      · rintro rfl
        constructor <;> rintro rfl <;> exact absurd hw (by decide)

/-- Witness for C3 at a concrete draw (`rngZero` yields the syllable `P`-`A`
from the struct sampler). -/
theorem c3_witness :
    (((Syllable.mk Onset.P Nucleus.A Coda.Null).onset = Onset.T ∨
        (Syllable.mk Onset.P Nucleus.A Coda.Null).onset = Onset.J) →
      (Syllable.mk Onset.P Nucleus.A Coda.Null).nucleus ≠ Nucleus.I) ∧
    ((Syllable.mk Onset.P Nucleus.A Coda.Null).onset = Onset.W →
      (Syllable.mk Onset.P Nucleus.A Coda.Null).nucleus ≠ Nucleus.O ∧
      (Syllable.mk Onset.P Nucleus.A Coda.Null).nucleus ≠ Nucleus.U) :=
  c3_nucleus_exclusion_per_sampler.1 rngZero none
    (Syllable.mk Onset.P Nucleus.A Coda.Null) none rngZero rfl

/-- **C5.** For every (onset, nucleus, coda) triple satisfying the nucleus
exclusion invariants, both syllable-block tables (Hangul and Syllabics) return a
defined glyph: none of their `unreachable!()` arms is hit. -/
theorem c5_syllable_block_tables_total (o : Onset) (nu : Nucleus) (c : Coda)
    (h : ((o = Onset.T ∨ o = Onset.J) → nu ≠ Nucleus.I) ∧
      (o = Onset.W → nu ≠ Nucleus.O ∧ nu ≠ Nucleus.U)) :
    (Syllable.hangulChar ⟨o, nu, c⟩).isSome = true ∧
    (Onset.syllabicsChar o nu).isSome = true := by
  revert o nu c h
  decide

/-- Witness for C5 at the triple (`P`, `A`, no coda). -/
theorem c5_witness :
    (Syllable.hangulChar ⟨Onset.P, Nucleus.A, Coda.Null⟩).isSome = true ∧
    (Onset.syllabicsChar Onset.P Nucleus.A).isSome = true :=
  c5_syllable_block_tables_total Onset.P Nucleus.A Coda.Null (by decide)

/-! ### The retroactive coda mutation and the assembled-name invariants -/

/-- The onset step with a previous syllable present: the drawn onset is never
null, and the previous syllable comes back with its coda cleared exactly when
the drawn onset is `M` or `N`. -/
theorem Syllable.onsetStep_prev_some {r : Rng} {p : Syllable} {o : Onset}
    {q : Option Syllable} {r₁ : Rng}
    (h : Syllable.onsetStep r (some p) = some ((o, q), r₁)) :
    o ≠ Onset.Null ∧
    q = some (if o = Onset.M ∨ o = Onset.N
              then { p with coda := Coda.Null } else p) := by
  simp only [Syllable.onsetStep] at h
  cases ho : Onset.random r with
  | none => rw [ho] at h; exact Option.noConfusion h
  | some v =>
    obtain ⟨onset, r₂⟩ := v
    rw [ho] at h
    dsimp only at h
    have hmem := chooseWeighted_mem ho
    by_cases hcond : onset = Onset.M ∨ onset = Onset.N
    · rw [if_pos hcond] at h
      simp only [Option.some.injEq, Prod.mk.injEq] at h
      obtain ⟨⟨rfl, rfl⟩, rfl⟩ := h
      refine ⟨?_, by rw [if_pos hcond]⟩
      intro hnull; rw [hnull] at hmem
      simp [Onset.weight] at hmem
    · rw [if_neg hcond] at h
      simp only [Option.some.injEq, Prod.mk.injEq] at h
      obtain ⟨⟨rfl, rfl⟩, rfl⟩ := h
      refine ⟨?_, by rw [if_neg hcond]⟩
      intro hnull; rw [hnull] at hmem
      simp [Onset.weight] at hmem

/-- `Syllable::new` with a previous syllable present: the new syllable's onset is
never null, and the previous syllable is returned with its coda cleared exactly
when the new onset is `M` or `N` (and untouched otherwise). -/
theorem Syllable.new_prev_some {r : Rng} {p s : Syllable} {q : Option Syllable}
    {r' : Rng} (h : Syllable.new r (some p) = some ((s, q), r')) :
    s.onset ≠ Onset.Null ∧
    q = some (if s.onset = Onset.M ∨ s.onset = Onset.N
              then { p with coda := Coda.Null } else p) := by
  unfold Syllable.new at h
  split at h
  · exact Option.noConfusion h
  · rename_i onset prev₂ r₁ heq₁
    obtain ⟨hnn, hq⟩ := Syllable.onsetStep_prev_some heq₁
    split at h
    · exact Option.noConfusion h
    · rename_i nucleus r₂ heq₂
      rcases hc : Coda.random r₂ with ⟨cd, r₃⟩
      rw [hc] at h
      simp only [Option.some.injEq, Prod.mk.injEq] at h
      obtain ⟨⟨hs, hq₂⟩, hr⟩ := h
      subst hs; subst hq₂
      exact ⟨hnn, hq⟩

/-- Invariant of the modelled assembler tail: the produced list starts with the
(possibly coda-cleared) `last` syllable, satisfies the nasal-clash freedom
check, and every syllable after the head has a non-null onset. -/
theorem Name.randomAux_spec :
    ∀ (k : Nat) (last : Syllable) (r : Rng) (l : List Syllable) (r' : Rng),
      Name.randomAux k last r = some (l, r') →
      ∃ first tl, l = first :: tl ∧
        first.onset = last.onset ∧ first.nucleus = last.nucleus ∧
        noNasalClashB l = true ∧
        ∀ s ∈ tl, s.onset ≠ Onset.Null := by
  intro k
  induction k with
  | zero =>
    intro last r l r' h
    simp only [Name.randomAux, Option.some.injEq, Prod.mk.injEq] at h
    obtain ⟨rfl, rfl⟩ := h
    exact ⟨last, [], rfl, rfl, rfl, rfl, by simp⟩
  | succ k ih =>
    intro last r l r' h
    simp only [Name.randomAux] at h
    split at h
    · exact Option.noConfusion h
    · rename_i s prevOut r₁ hnew
      split at h
      · exact Option.noConfusion h
      · rename_i p
        split at h
        · exact Option.noConfusion h
        · rename_i rest r₂ hrest
          simp only [Option.some.injEq, Prod.mk.injEq] at h
          obtain ⟨rfl, rfl⟩ := h
          obtain ⟨hnn, hq⟩ := Syllable.new_prev_some hnew
          rw [Option.some.injEq] at hq
          obtain ⟨first₂, t₂, rfl, hono, hnuc, hclash, htail⟩ :=
            ih s r₁ _ r₂ hrest
          refine ⟨p, first₂ :: t₂, rfl, ?_, ?_, ?_, ?_⟩
          · rw [hq]; by_cases hc : s.onset = Onset.M ∨ s.onset = Onset.N
            · rw [if_pos hc]
            · rw [if_neg hc]
          · rw [hq]; by_cases hc : s.onset = Onset.M ∨ s.onset = Onset.N
            · rw [if_pos hc]
            · rw [if_neg hc]
          · show ((!(decide (p.coda = Coda.N)
                && (decide (first₂.onset = Onset.M)
                    || decide (first₂.onset = Onset.N))))
                && noNasalClashB (first₂ :: t₂)) = true
            rw [hclash, Bool.and_true]
            by_cases hc : s.onset = Onset.M ∨ s.onset = Onset.N
            · have hp : p.coda = Coda.Null := by rw [hq, if_pos hc]
              simp [hp]
            · push_neg at hc
              simp [hono, hc.1, hc.2]
          · intro x hx
            rcases List.mem_cons.mp hx with rfl | hx₂
            · rw [hono]; exact hnn
            · exact htail x hx₂

/-- **C2.** In every fully assembled name (after all retroactive coda
mutations) no syllable has a nasal coda `N` immediately followed by a syllable
whose onset is `M` or `N`: `Syllable::new` clears the previous syllable's coda
whenever it draws such an onset. -/
theorem c2_no_nasal_clash (r : Rng) (count : Nat) (l : List Syllable) (r' : Rng)
    (h : Name.random r count = some (l, r')) :
    noNasalClashB l = true := by
  cases count with
  | zero =>
    simp only [Name.random, Option.some.injEq, Prod.mk.injEq] at h
    obtain ⟨rfl, rfl⟩ := h
    rfl
  | succ k =>
    simp only [Name.random] at h
    split at h
    · exact Option.noConfusion h
    · rename_i s q r₁ hnew
      obtain ⟨first, tl, rfl, -, -, hclash, -⟩ :=
        Name.randomAux_spec k s r₁ _ r' h
      exact hclash

/-- Witness for C2: a concrete two-syllable assembly. -/
theorem c2_witness :
    noNasalClashB [⟨Onset.P, Nucleus.A, Coda.Null⟩,
      ⟨Onset.P, Nucleus.A, Coda.Null⟩] = true :=
  c2_no_nasal_clash rngZero 2
    [⟨Onset.P, Nucleus.A, Coda.Null⟩, ⟨Onset.P, Nucleus.A, Coda.Null⟩]
    rngZero rfl

/-- **C10.** Only the first syllable of an assembled name can have a null onset:
every later syllable is built by `Syllable::new` with a previous syllable
present, which always draws from the weighted onset set (where `Null` carries
weight 0 and is absent from the candidate list). -/
theorem c10_only_first_syllable_null_onset (r : Rng) (count : Nat)
    (l : List Syllable) (r' : Rng) (h : Name.random r count = some (l, r')) :
    ∀ s ∈ l.tail, s.onset ≠ Onset.Null := by
  cases count with
  | zero =>
    simp only [Name.random, Option.some.injEq, Prod.mk.injEq] at h
    obtain ⟨rfl, rfl⟩ := h
    simp
  | succ k =>
    simp only [Name.random] at h
    split at h
    · exact Option.noConfusion h
    · rename_i s q r₁ hnew
      obtain ⟨first, tl, rfl, -, -, -, htail⟩ :=
        Name.randomAux_spec k s r₁ _ r' h
      simpa using htail

/-- Witness for C10: the second syllable of a concrete two-syllable assembly has
a non-null onset. -/
theorem c10_witness :
    (Syllable.mk Onset.P Nucleus.A Coda.Null).onset ≠ Onset.Null :=
  c10_only_first_syllable_null_onset rngZero 2
    [⟨Onset.P, Nucleus.A, Coda.Null⟩, ⟨Onset.P, Nucleus.A, Coda.Null⟩]
    rngZero rfl
    (Syllable.mk Onset.P Nucleus.A Coda.Null) (by simp)

/-! ### The rejection-sampling loop of `NameGenerator::generate` -/

/-- Soundness of the rejection loop: any returned name passed the length check,
and is verbatim one candidate produced by `name` (candidates are discarded
whole and regenerated, never patched). -/
theorem NameGenerator.generate_sound (g : NameGenerator) (titleCase : Bool) :
    ∀ (fuel : Nat) (r : Rng) (nm : List Char),
      g.generate r titleCase fuel = some nm →
      g.min_length ≤ nm.length ∧ (∀ m ∈ g.max_length, nm.length ≤ m) ∧
      ∃ r₁ r₂, name r₁ g.syllable_count titleCase = some (nm, r₂) := by
  intro fuel
  induction fuel with
  | zero => intro r nm h; exact Option.noConfusion h
  | succ fuel ih =>
    intro r nm h
    simp only [NameGenerator.generate] at h
    split at h
    · exact Option.noConfusion h
    · rename_i nm₁ r₁ hname
      split at h
      · rename_i hcond
        injection h with h'
        subst h'
        simp only [Bool.and_eq_true, decide_eq_true_eq] at hcond
        obtain ⟨h₁, h₂⟩ := hcond
        refine ⟨h₁, ?_, r, r₁, hname⟩
        intro m hm
        rw [Option.mem_def] at hm
        rw [hm] at h₂
        simpa [Option.all] using h₂
      · exact ih r₁ nm h

/-- **C1.** For every valid bounds pair, every name returned by
`NameGenerator::generate` has length at least `min_length` and, when
`max_length` is set, at most `max_length`; moreover the returned name is
verbatim a candidate built by `name` (failed candidates are discarded whole and
regenerated, never patched). -/
theorem c1_generate_length_bounds (min_length : Nat) (max_length : Option Nat)
    (r : Rng) (titleCase : Bool) (fuel : Nat) (nm : List Char)
    (_hmin : 0 < min_length)
    (_hmax : ∀ m ∈ max_length, 0 < m ∧ min_length ≤ m)
    (h : (NameGenerator.new min_length max_length).generate r titleCase fuel
        = some nm) :
    min_length ≤ nm.length ∧
    (∀ m ∈ max_length, nm.length ≤ m) ∧
    ∃ r₁ r₂,
      name r₁ (NameGenerator.new min_length max_length).syllable_count titleCase
        = some (nm, r₂) :=
  NameGenerator.generate_sound (NameGenerator.new min_length max_length)
    titleCase fuel r nm h

/-- Witness for C1 with bounds (1, some 6): `rngZero` makes the first candidate
`"pa"`, which is accepted. -/
theorem c1_witness :
    1 ≤ (['p', 'a'] : List Char).length ∧
    (['p', 'a'] : List Char).length ≤ 6 := by
  have h := c1_generate_length_bounds 1 (some 6) rngZero false 1 ['p', 'a']
    (by decide)
    (by intro m hm; rw [Option.mem_def] at hm; injection hm with hm; omega)
    rfl
  exact ⟨h.1, h.2.1 6 (Option.mem_def.mpr rfl)⟩

/-- **C4.** `NameGenerator::new` computes `min_syllables = ceil(min_length / 3)`
(pinned by the two divisibility bounds below), `max_syllables = (max_length+1)/2`
when a maximum is given and `(min_length+7)/2` otherwise, and the distribution
is `Fixed` at `min_syllables` exactly when the two counts agree, else
Poisson-shaped at `min_syllables + X` with rate `max_syllables - min_syllables`
clamped to the sampler's maximum supported rate. -/
theorem c4_new_syllable_count (min_length : Nat) (max_length : Option Nat)
    (_hmin : 0 < min_length)
    (hmax : ∀ m ∈ max_length, 0 < m ∧ min_length ≤ m) :
    ∃ minS maxS : Nat,
      min_length ≤ 3 * minS ∧ 3 * minS ≤ min_length + 2 ∧
      (∀ maxL, max_length = some maxL → maxS = (maxL + 1) / 2) ∧
      (max_length = none → maxS = (min_length + 7) / 2) ∧
      (NameGenerator.new min_length max_length).syllable_count =
        (if minS = maxS then SyllableCountDistribution.Fixed minS
         else
           SyllableCountDistribution.Poisson minS
             (min (maxS - minS) poissonMaxLambda)) := by
  cases max_length with
  | none =>
    exact ⟨(min_length + 2) / 3, (min_length + 7) / 2, by omega, by omega,
      fun maxL h => Option.noConfusion h, fun _ => rfl, rfl⟩
  | some maxL =>
    exact ⟨(min_length + 2) / 3, (maxL + 1) / 2, by omega, by omega,
      fun maxL₂ h => by injection h with h; rw [h], fun h => Option.noConfusion h,
      rfl⟩

/-- Witness for C4 at bounds (5, some 8): two to four syllables, Poisson rate 2. -/
theorem c4_witness :
    ∃ minS maxS : Nat,
      5 ≤ 3 * minS ∧ 3 * minS ≤ 5 + 2 ∧
      (∀ maxL, (some 8 : Option Nat) = some maxL → maxS = (maxL + 1) / 2) ∧
      ((some 8 : Option Nat) = none → maxS = (5 + 7) / 2) ∧
      (NameGenerator.new 5 (some 8)).syllable_count =
        (if minS = maxS then SyllableCountDistribution.Fixed minS
         else
           SyllableCountDistribution.Poisson minS
             (min (maxS - minS) poissonMaxLambda)) :=
  c4_new_syllable_count 5 (some 8) (by decide)
    (by intro m hm; rw [Option.mem_def] at hm; injection hm with hm; omega)

/-- **C6, counterexample.** With bounds (6, 6) the computed distribution is not
`Fixed`: `min_syllables = 2` and `max_syllables = 3` differ, so `new` builds the
Poisson-shaped distribution with minimum 2 and rate 1. -/
theorem c6_counterexample :
    (NameGenerator.new 6 (some 6)).syllable_count =
      SyllableCountDistribution.Poisson 2 1 ∧
    (NameGenerator.new 6 (some 6)).syllable_count ≠
      SyllableCountDistribution.Fixed 2 := by
  constructor
  · rfl
  · intro hfix
    rw [(rfl : (NameGenerator.new 6 (some 6)).syllable_count =
        SyllableCountDistribution.Poisson 2 1)] at hfix
    exact SyllableCountDistribution.noConfusion hfix

/-- **C6, amended.** With bounds (6, 6) the syllable-count distribution is
Poisson-shaped with minimum 2 and rate 1 (not `Fixed`), and every name returned
by `generate` for those bounds has character length exactly 6. -/
theorem c6_six_six_exact_length (fuel : Nat) (r : Rng) (titleCase : Bool)
    (nm : List Char)
    (h : (NameGenerator.new 6 (some 6)).generate r titleCase fuel = some nm) :
    (NameGenerator.new 6 (some 6)).syllable_count =
      SyllableCountDistribution.Poisson 2 1 ∧
    nm.length = 6 := by
  obtain ⟨h₁, h₂, -⟩ :=
    NameGenerator.generate_sound (NameGenerator.new 6 (some 6)) titleCase
      fuel r nm h
  have h₃ := h₂ 6 (Option.mem_def.mpr rfl)
  have h₄ : (6 : Nat) ≤ nm.length := h₁
  exact ⟨rfl, by omega⟩

/-- Witness for C6: `rngPoisson1` makes the first candidate `"papapa"`, which is
accepted with length exactly 6. -/
theorem c6_witness :
    (NameGenerator.new 6 (some 6)).syllable_count =
      SyllableCountDistribution.Poisson 2 1 ∧
    (['p', 'a', 'p', 'a', 'p', 'a'] : List Char).length = 6 :=
  c6_six_six_exact_length 1 rngPoisson1 false ['p', 'a', 'p', 'a', 'p', 'a'] rfl

/-! ### Tracking the uniform stream through the draws (for C7) -/

/-- `choose_weighted` consumes only integer draws: the uniform stream is
untouched. -/
theorem chooseWeighted_unifs {α : Type} {items : List α} {w : α → Nat} {r : Rng}
    {a : α} {r' : Rng} (h : chooseWeighted items w r = some (a, r')) :
    r'.unifs = r.unifs := by
  simp only [chooseWeighted] at h
  split at h
  · exact Option.noConfusion h
  · rw [Option.map_eq_some'] at h
    obtain ⟨b, hb, hba⟩ := h
    injection hba with h₁ h₂
    subst h₂
    rfl

/-- The onset step with a previous syllable consumes no uniform draw. -/
theorem Syllable.onsetStep_unifs_some {r : Rng} {p : Syllable} {o : Onset}
    {q : Option Syllable} {r₁ : Rng}
    (h : Syllable.onsetStep r (some p) = some ((o, q), r₁)) :
    r₁.unifs = r.unifs := by
  simp only [Syllable.onsetStep] at h
  cases ho : Onset.random r with
  | none => rw [ho] at h; exact Option.noConfusion h
  | some v =>
    obtain ⟨onset, r₂⟩ := v
    rw [ho] at h
    dsimp only at h
    have hu := chooseWeighted_unifs ho
    by_cases hcond : onset = Onset.M ∨ onset = Onset.N
    · rw [if_pos hcond] at h
      simp only [Option.some.injEq, Prod.mk.injEq] at h
      obtain ⟨-, rfl⟩ := h
      exact hu
    · rw [if_neg hcond] at h
      simp only [Option.some.injEq, Prod.mk.injEq] at h
      obtain ⟨-, rfl⟩ := h
      exact hu

/-- The onset step with no previous syllable consumes exactly the one uniform
draw of the 0.25 null-onset coin. -/
theorem Syllable.onsetStep_unifs_none {r : Rng} {o : Onset}
    {q : Option Syllable} {r₁ : Rng}
    (h : Syllable.onsetStep r none = some ((o, q), r₁)) :
    r₁.unifs = fun n => r.unifs (n + 1) := by
  simp only [Syllable.onsetStep, Rng.nextBool] at h
  split at h
  · simp only [Option.some.injEq, Prod.mk.injEq] at h
    obtain ⟨-, rfl⟩ := h
    rfl
  · cases ho : Onset.random ⟨fun n => r.unifs (n + 1), r.picks⟩ with
    | none => rw [ho] at h; exact Option.noConfusion h
    | some v =>
      obtain ⟨onset, r₂⟩ := v
      rw [ho] at h
      dsimp only at h
      simp only [Option.some.injEq, Prod.mk.injEq] at h
      obtain ⟨-, rfl⟩ := h
      exact chooseWeighted_unifs ho

/-- The coda of a syllable built by `Syllable::new` is `N` exactly when the one
uniform draw consumed by `Coda::random` — the first with a previous syllable
present, the second otherwise — lies below 0.1, regardless of which onset and
nucleus were drawn. -/
theorem Syllable.new_coda_iff {r : Rng} {prev : Option Syllable} {s : Syllable}
    {q : Option Syllable} {r' : Rng}
    (h : Syllable.new r prev = some ((s, q), r')) :
    (s.coda = Coda.N ↔ r.unifs (if prev.isSome then 0 else 1) < 1 / 10) := by
  unfold Syllable.new at h
  split at h
  · exact Option.noConfusion h
  · rename_i onset prev₂ r₁ heq₁
    split at h
    · exact Option.noConfusion h
    · rename_i nucleus r₂ heq₂
      have hu₂ : r₂.unifs = r₁.unifs := chooseWeighted_unifs heq₂
      have hu₁ : r₁.unifs = fun n => r.unifs (n + if prev.isSome then 0 else 1) := by
        cases prev with
        | some p =>
          have hs₁ := Syllable.onsetStep_unifs_some heq₁
          funext n; rw [hs₁]; simp
        | none =>
          have hs₁ := Syllable.onsetStep_unifs_none heq₁
          rw [hs₁]
          rfl
      rcases hc : Coda.random r₂ with ⟨cd, r₃⟩
      rw [hc] at h
      simp only [Option.some.injEq, Prod.mk.injEq] at h
      obtain ⟨⟨hs, -⟩, -⟩ := h
      subst hs
      simp only [Coda.random, Rng.nextBool] at hc
      injection hc with hcd hr₃
      have hobs : r₂.unifs 0 = r.unifs (if prev.isSome then 0 else 1) := by
        rw [hu₂, hu₁]
        simp
      have hθ : Rat.divInt 1 10 = (1 : ℚ) / 10 := by
        rw [Rat.divInt_eq_div]; norm_num
      show cd = Coda.N ↔ _
      rw [← hcd]
      by_cases hlt : r.unifs (if prev.isSome then 0 else 1) < (1 : ℚ) / 10
      · have h₂ : r₂.unifs 0 < Rat.divInt 1 10 := by rw [hobs, hθ]; exact hlt
        rw [if_pos (by simpa using h₂)]
        exact iff_of_true rfl hlt
      · have h₂ : ¬ r₂.unifs 0 < Rat.divInt 1 10 := by rw [hobs, hθ]; exact hlt
        rw [if_neg (by simpa using h₂)]
        exact iff_of_false (by decide) hlt

/-! ### C7, C8, C9 -/

/-- **C7, amended.** In the syllable-struct sampler the coda draw is independent
of onset and nucleus and succeeds exactly on a uniform draw below 0.1; the
string-based sampler of `lib.rs` instead appends its coda `'n'` exactly on a
uniform draw below **0.06**. -/
theorem c7_coda_probabilities :
    (∀ (r : Rng) (prev : Option Syllable) (s : Syllable) (q : Option Syllable)
        (r' : Rng), Syllable.new r prev = some ((s, q), r') →
        (s.coda = Coda.N ↔ r.unifs (if prev.isSome then 0 else 1) < 1 / 10)) ∧
    (∀ (buf : List Char) (r : Rng) (titleCase : Bool) (out : List Char)
        (r' : Rng), nucleus buf r titleCase = some (out, r') →
        ∃ c, c ≠ 'n' ∧
          out = buf ++ [c] ++
            (if r.unifs 0 < (6 : ℚ) / 100 then ['n'] else [])) := by
  constructor
  · intro r prev s q r' h
    exact Syllable.new_coda_iff h
  · intro buf r titleCase out r' h
    simp only [nucleus] at h
    cases hv : chooseWeighted ['a', 'i', 'e', 'o', 'u']
        (nucleusWeightStr buf.getLast?) r with
    | none => rw [hv] at h; exact Option.noConfusion h
    | some v =>
      obtain ⟨c₀, r₁⟩ := v
      rw [hv] at h
      dsimp only at h
      simp only [Rng.nextBool] at h
      simp only [Option.some.injEq, Prod.mk.injEq] at h
      obtain ⟨hout, -⟩ := h
      have hu : r₁.unifs = r.unifs := chooseWeighted_unifs hv
      have hmem := (chooseWeighted_mem hv).1
      refine ⟨if titleCase then c₀.toUpper else c₀, ?_, ?_⟩
      · rcases (by simpa using hmem :
            c₀ = 'a' ∨ c₀ = 'i' ∨ c₀ = 'e' ∨ c₀ = 'o' ∨ c₀ = 'u') with
          rfl | rfl | rfl | rfl | rfl <;> cases titleCase <;> decide
      · rw [← hout]
        have hθ : Rat.divInt 6 100 = (6 : ℚ) / 100 := by
          rw [Rat.divInt_eq_div]; norm_num
        by_cases hlt : r.unifs 0 < (6 : ℚ) / 100
        · have h₂ : r₁.unifs 0 < Rat.divInt 6 100 := by rw [hu, hθ]; exact hlt
          rw [if_pos (by simpa using h₂), if_pos hlt]
        · have h₂ : ¬ r₁.unifs 0 < Rat.divInt 6 100 := by rw [hu, hθ]; exact hlt
          rw [if_neg (by simpa using h₂), if_neg hlt]
          simp

/-- **C7, counterexample.** The uniform draw 0.08 lies below 0.1, yet the
`lib.rs` sampler appends no `'n'` for it (its threshold is 0.06), while
`Coda::random` does return `N` for the same draw: the two coda draws of the
repository do not share the claimed probability 0.1. -/
theorem c7_counterexample :
    (nucleus [] rngMid false).map (fun p => p.1) = some ['a'] ∧
    rngMid.unifs 0 < (1 : ℚ) / 10 ∧
    (Coda.random rngMid).1 = Coda.N := by
  refine ⟨rfl, ?_, rfl⟩
  show Rat.divInt 2 25 < 1 / 10
  rw [Rat.divInt_eq_div]; norm_num

/-- Witness for C7 at a concrete draw: `rngZero` never draws below 0.1, and the
built syllable indeed has no coda. -/
theorem c7_witness :
    ((Syllable.mk Onset.P Nucleus.A Coda.Null).coda = Coda.N ↔
      rngZero.unifs (if (none : Option Syllable).isSome then 0 else 1)
        < 1 / 10) :=
  c7_coda_probabilities.1 rngZero none (Syllable.mk Onset.P Nucleus.A Coda.Null)
    none rngZero rfl

/-- **C8, counterexample.** An onset `N` following a syllable with coda `N`
renders exactly as it does with no previous syllable at all — the independent
back-vowel onset glyph with the backness flag set — not an allomorphic form:
`Onset::orkhon_char` has `prev`-coda guards only for onsets `T` and `J`. -/
theorem c8_counterexample :
    Onset.orkhonChar Onset.N (some ⟨Onset.P, Nucleus.A, Coda.N⟩) true
      = (some '𐰣', true) ∧
    Onset.orkhonChar Onset.N none true = (some '𐰣', true) :=
  ⟨rfl, rfl⟩

/-- **C8, amended.** In Orkhon rendering it is onsets `T` and `J` (not `N`)
that, when the previous syllable's coda is `N`, render with the allomorphic
ligature glyph (`𐰦` resp. `𐰪`, with the backness flag false) instead of the
independent onset-plus-vowel pair. -/
theorem c8_orkhon_allomorph (prev : Syllable) (isBack : Bool)
    (h : prev.coda = Coda.N) :
    Onset.orkhonChar Onset.T (some prev) isBack = (some '𐰦', false) ∧
    Onset.orkhonChar Onset.J (some prev) isBack = (some '𐰪', false) := by
  have hp : prevCodaIsN (some prev) = true := by simp [prevCodaIsN, h]
  constructor <;> simp [Onset.orkhonChar, hp]

/-- Witness for C8 at a concrete previous syllable with coda `N`. -/
theorem c8_witness :
    Onset.orkhonChar Onset.T (some ⟨Onset.P, Nucleus.A, Coda.N⟩) true
      = (some '𐰦', false) ∧
    Onset.orkhonChar Onset.J (some ⟨Onset.P, Nucleus.A, Coda.N⟩) true
      = (some '𐰪', false) :=
  c8_orkhon_allomorph ⟨Onset.P, Nucleus.A, Coda.N⟩ true rfl

/-- **C9.** In Hebrew rendering a nasal coda emits the final letterform `ן`
exactly when the syllable is word-final (`next` absent) and the medial
letterform `נ` otherwise; in particular the three-syllable sequence
(∅/A/∅), (P/A/N), (T/I/∅) renders its middle coda with the medial form, while
the same nasal syllable rendered word-final takes the final form. -/
theorem c9_hebrew_final_form :
    (∀ (s : Syllable) (next : Option Syllable), s.coda = Coda.N →
        s.writeHebrew next =
          [s.onset.hebrewChar, s.nucleus.hebrewChar,
            if next.isNone then 'ן' else 'נ']) ∧
    Name.writeHebrew
        [⟨Onset.Null, Nucleus.A, Coda.Null⟩, ⟨Onset.P, Nucleus.A, Coda.N⟩,
          ⟨Onset.T, Nucleus.I, Coda.Null⟩] =
      ['א', 'ָ', 'פ', 'ָ', 'נ', 'ט', 'ִ'] ∧
    Name.writeHebrew
        [⟨Onset.Null, Nucleus.A, Coda.Null⟩, ⟨Onset.P, Nucleus.A, Coda.N⟩] =
      ['א', 'ָ', 'פ', 'ָ', 'ן'] := by
  refine ⟨?_, rfl, rfl⟩
  intro s next hc
  cases next <;> simp [Syllable.writeHebrew, Coda.hebrewChar, hc]

/-- Witness for C9: a word-final nasal coda renders with the final letterform. -/
theorem c9_witness :
    (Syllable.mk Onset.P Nucleus.A Coda.N).writeHebrew none =
      [(Syllable.mk Onset.P Nucleus.A Coda.N).onset.hebrewChar,
        (Syllable.mk Onset.P Nucleus.A Coda.N).nucleus.hebrewChar,
        if (none : Option Syllable).isNone then 'ן' else 'נ'] :=
  c9_hebrew_final_form.1 (Syllable.mk Onset.P Nucleus.A Coda.N) none rfl

end IloNimi
